import Mathlib

/-!
Shallow embedding of the bag-of-words vectorization-and-ranking engine of
`bow.py`: vocabulary fitting (`CountVectorizer.fit`), the raw-count
transform, TF-IDF weighting (`TfidfVectorizer` with its default smoothed
IDF and L2 normalization), cosine similarity, and the pandas-style
descending sort used for ranking.  Tokenization is the external
collaborator: documents enter the model as lists of token strings.
-/

namespace BoW

/-- Per-token case folding, the `lowercase` option of `CountVectorizer` /
`TfidfVectorizer` in `bow.py`. -/
def normalizeTok (lowercase : Bool) (t : String) : String :=
  if lowercase then t.toLower else t

/-- Vocabulary fitting (`count_small.fit` / `count.fit` / `tfidf.fit` in
`bow.py`): collect the distinct (optionally case-folded) tokens across all
documents and sort them lexicographically; the position of a term in the
resulting list is its vocabulary index, as reported by
`get_feature_names`. -/
def fitVocabulary (lowercase : Bool) (corpus : List (List String)) : List String :=
  ((corpus.map (List.map (normalizeTok lowercase))).flatten.dedup).mergeSort
    (fun a b => decide (a ≤ b))

/-- Raw-count transform (`count.transform` in `bow.py`): entry `k` of the
output vector is the number of occurrences of vocabulary term `k` among the
case-folded tokens of the document; tokens absent from the vocabulary are
silently dropped. -/
def countTransform (lowercase : Bool) (vocab : List String) (doc : List String) :
    List ℕ :=
  vocab.map fun w => (doc.map (normalizeTok lowercase)).count w

lemma fitVocabulary_nodup (lowercase : Bool) (corpus : List (List String)) :
    (fitVocabulary lowercase corpus).Nodup :=
  (List.mergeSort_perm _ _).symm.nodup (List.nodup_dedup _)

lemma sum_map_ite_eq (t : String) (vocab : List String) (h : vocab.Nodup) :
    (vocab.map fun w => if w = t then 1 else 0).sum = if t ∈ vocab then 1 else 0 := by
  induction vocab with
  | nil => simp
  | cons v vs ih =>
    rcases List.nodup_cons.mp h with ⟨hv, hvs⟩
    by_cases hvt : v = t
    · subst hvt
      have htv : v ∉ vs := hv
      simp [ih hvs, htv]
    · have hmem : (t ∈ v :: vs) ↔ t ∈ vs := by
        constructor
        · intro hm
          rcases List.mem_cons.mp hm with h1 | h1
          · exact absurd h1.symm hvt
          · exact h1
        · exact fun hm => List.mem_cons.mpr (Or.inr hm)
      rw [List.map_cons, List.sum_cons, if_neg hvt, ih hvs]
      simp [hmem]

lemma sum_map_add_nat {β : Type} (l : List β) (f g : β → ℕ) :
    (l.map fun x => f x + g x).sum = (l.map f).sum + (l.map g).sum := by
  induction l with
  | nil => simp
  | cons x xs ih => simp [ih]; omega

lemma sum_map_count (doc' : List String) (vocab : List String) (h : vocab.Nodup) :
    (vocab.map fun w => doc'.count w).sum
      = (doc'.filter fun t => t ∈ vocab).length := by
  induction doc' with
  | nil => simp
  | cons t rest ih =>
    have hc : ∀ w : String, (t :: rest).count w = rest.count w + if w = t then 1 else 0 := by
      intro w
      by_cases hwt : w = t
      · subst hwt; simp [List.count_cons]
      · simp [List.count_cons, hwt, Ne.symm hwt]
    have hcount : (vocab.map fun w => (t :: rest).count w)
        = vocab.map fun w => rest.count w + if w = t then 1 else 0 :=
      List.map_congr_left (fun w _ => hc w)
    rw [hcount, sum_map_add_nat, ih, sum_map_ite_eq t vocab h]
    by_cases hm : t ∈ vocab <;> simp [hm]

/-- C1: for every fitted vocabulary and tokenized document, the raw-count
vector's weights sum to the number of tokens of the document that are
(after case folding) present in the vocabulary; out-of-vocabulary tokens
contribute nothing. -/
theorem countTransform_sum_preservation (lowercase : Bool)
    (corpus : List (List String)) (doc : List String) :
    (countTransform lowercase (fitVocabulary lowercase corpus) doc).sum
      = (doc.filter fun t =>
          normalizeTok lowercase t ∈ fitVocabulary lowercase corpus).length := by
  rw [countTransform,
    sum_map_count _ _ (fitVocabulary_nodup lowercase corpus)]
  rw [List.filter_map]
  rw [List.length_map]
  rfl

/-- C5: vocabulary fitting collects the set of distinct (optionally
case-folded) tokens across all documents and lists them in strictly
increasing lexicographic order, so position `k` in the output list is the
index assignment `0..N-1` of the sorted order. -/
theorem fitVocabulary_sorted_complete (lowercase : Bool)
    (corpus : List (List String)) :
    (fitVocabulary lowercase corpus).Sorted (· < ·)
    ∧ ∀ t, t ∈ fitVocabulary lowercase corpus ↔
        ∃ d ∈ corpus, ∃ tok ∈ d, normalizeTok lowercase tok = t := by
  constructor
  · have hsorted :
        (fitVocabulary lowercase corpus).Pairwise (fun a b : String => a ≤ b) := by
      have h0 : (((corpus.map (List.map (normalizeTok lowercase))).flatten.dedup).mergeSort
            (fun a b : String => decide (a ≤ b))).Pairwise
            (fun a b : String => decide (a ≤ b) = true) :=
        List.sorted_mergeSort
          (fun a b c hab hbc => by
            simp only [decide_eq_true_eq] at *
            exact le_trans hab hbc)
          (fun a b => by simpa using le_total a b)
          ((corpus.map (List.map (normalizeTok lowercase))).flatten.dedup)
      exact h0.imp (fun h => by simpa using h)
    exact List.Sorted.lt_of_le hsorted (fitVocabulary_nodup lowercase corpus)
  · intro t
    simp only [fitVocabulary, List.mem_mergeSort, List.mem_dedup, List.mem_flatten,
      List.mem_map]
    constructor
    · rintro ⟨l, ⟨d, hd, rfl⟩, ht⟩
      rcases List.mem_map.mp ht with ⟨tok, htok, rfl⟩
      exact ⟨d, hd, tok, htok, rfl⟩
    · rintro ⟨d, hd, tok, htok, rfl⟩
      exact ⟨d.map (normalizeTok lowercase), ⟨d, hd, rfl⟩,
        List.mem_map.mpr ⟨tok, htok, rfl⟩⟩

/-- C6: fitting is a pure, deterministic function of the corpus and the
normalization flag: two runs on identical inputs yield identical
vocabulary index assignments. -/
theorem fitVocabulary_deterministic (c₁ c₂ : List (List String)) (f₁ f₂ : Bool)
    (hc : c₁ = c₂) (hf : f₁ = f₂) :
    fitVocabulary f₁ c₁ = fitVocabulary f₂ c₂ := by
  rw [hc, hf]

/-- Witness for C6 at a concrete corpus. -/
theorem fitVocabulary_deterministic_witness :
    fitVocabulary true [["The", "cat", "sat"], ["the", "dog"]]
      = fitVocabulary true [["The", "cat", "sat"], ["the", "dog"]] :=
  fitVocabulary_deterministic _ _ _ _ rfl rfl

/-- Document frequency of vocabulary index `k`: the number of rows of the
fitted count matrix with a non-zero weight at index `k`. -/
def documentFrequency (matrix : List (List ℕ)) (k : ℕ) : ℕ :=
  (matrix.filter fun row => decide (row.getD k 0 ≠ 0)).length

/-- Smoothed inverse document frequency, the sklearn default used by
`TfidfVectorizer` in `bow.py`: `ln((1 + D) / (1 + DF)) + 1`. -/
noncomputable def idf (D df : ℕ) : ℝ :=
  Real.log ((1 + (D : ℝ)) / (1 + (df : ℝ))) + 1

/-- The IDF table entry `tfidf.idf_[k]` of a transformer fitted on the given
count matrix. -/
noncomputable def idfOf (matrix : List (List ℕ)) (k : ℕ) : ℝ :=
  idf matrix.length (documentFrequency matrix k)

lemma documentFrequency_le (matrix : List (List ℕ)) (k : ℕ) :
    documentFrequency matrix k ≤ matrix.length :=
  List.length_filter_le _ _

lemma one_le_idf {D df : ℕ} (h : df ≤ D) : 1 ≤ idf D df := by
  have h1 : (0 : ℝ) < 1 + (df : ℝ) := by positivity
  have h2 : (1 + (df : ℝ)) ≤ 1 + (D : ℝ) := by
    have : (df : ℝ) ≤ (D : ℝ) := Nat.cast_le.mpr h
    linarith
  have hlog : 0 ≤ Real.log ((1 + (D : ℝ)) / (1 + (df : ℝ))) :=
    Real.log_nonneg ((one_le_div h1).mpr h2)
  unfold idf
  linarith

lemma idf_le_log (D df : ℕ) : idf D df ≤ Real.log (1 + (D : ℝ)) + 1 := by
  have h1 : (0 : ℝ) < 1 + (df : ℝ) := by positivity
  have h0 : (0 : ℝ) < 1 + (D : ℝ) := by positivity
  have hr : (1 + (D : ℝ)) / (1 + (df : ℝ)) ≤ 1 + (D : ℝ) :=
    div_le_self (le_of_lt h0) (by linarith [Nat.cast_nonneg (α := ℝ) df])
  have hpos : 0 < (1 + (D : ℝ)) / (1 + (df : ℝ)) := div_pos h0 h1
  have := Real.log_le_log hpos hr
  unfold idf
  linarith

lemma idf_self (D : ℕ) : idf D D = 1 := by
  have h0 : (1 + (D : ℝ)) ≠ 0 := by positivity
  unfold idf
  rw [div_self h0, Real.log_one]
  norm_num

lemma idf_zero (D : ℕ) : idf D 0 = Real.log (1 + (D : ℝ)) + 1 := by
  unfold idf
  norm_num

/-- C3: the fitted IDF table obeys `IDF = ln((1 + D) / (1 + DF)) + 1`, is
always strictly positive and at most `ln(1 + D) + 1`; terms occurring in
every fit document attain the minimum and terms occurring in none attain
the maximum. -/
theorem idf_formula_and_bounds (matrix : List (List ℕ)) (k : ℕ) :
    idfOf matrix k
        = Real.log ((1 + (matrix.length : ℝ))
            / (1 + (documentFrequency matrix k : ℝ))) + 1
    ∧ 0 < idfOf matrix k
    ∧ idfOf matrix k ≤ Real.log (1 + (matrix.length : ℝ)) + 1
    ∧ (∀ j, documentFrequency matrix j = matrix.length →
        idfOf matrix j ≤ idfOf matrix k)
    ∧ (∀ j, documentFrequency matrix j = 0 →
        idfOf matrix k ≤ idfOf matrix j) := by
  have hone : 1 ≤ idfOf matrix k := one_le_idf (documentFrequency_le matrix k)
  refine ⟨rfl, by linarith, idf_le_log _ _, ?_, ?_⟩
  · intro j hj
    have : idfOf matrix j = 1 := by
      unfold idfOf
      rw [hj]
      exact idf_self _
    linarith
  · intro j hj
    have : idfOf matrix j = Real.log (1 + (matrix.length : ℝ)) + 1 := by
      unfold idfOf
      rw [hj]
      exact idf_zero _
    have hle : idfOf matrix k ≤ Real.log (1 + (matrix.length : ℝ)) + 1 :=
      idf_le_log _ _
    linarith

/-- Witness for C3 at a concrete two-document count matrix. -/
theorem idf_formula_and_bounds_witness : 0 < idfOf [[1], [0]] 0 :=
  (idf_formula_and_bounds [[1], [0]] 0).2.1

/-- Term-frequency scaling of `TfidfVectorizer`: linear mode (the default)
is the raw count; sublinear mode (`sublinear_tf=True`) is `1 + ln(count)`
for a positive count and `0` for a zero count. -/
noncomputable def termFrequency (sublinear : Bool) (c : ℕ) : ℝ :=
  if sublinear then (if c = 0 then 0 else 1 + Real.log (c : ℝ)) else (c : ℝ)

/-- C4: sublinear TF equals `1 + ln(c)` for `c > 0` and `0` otherwise; for
`c > 1` it is strictly below the linear TF `c`; and its growth over any
step `c₁ < c₂` (with `c₁ ≥ 1`) is strictly smaller than the linear
growth `c₂ - c₁`. -/
theorem sublinear_tf_dampening :
    (∀ c : ℕ, 0 < c → termFrequency true c = 1 + Real.log (c : ℝ))
    ∧ termFrequency true 0 = 0
    ∧ (∀ c : ℕ, termFrequency false c = (c : ℝ))
    ∧ (∀ c : ℕ, 1 < c → termFrequency true c < termFrequency false c)
    ∧ (∀ c₁ c₂ : ℕ, 1 ≤ c₁ → c₁ < c₂ →
        termFrequency true c₂ - termFrequency true c₁
          < termFrequency false c₂ - termFrequency false c₁) := by
  refine ⟨?_, by simp [termFrequency], fun c => by simp [termFrequency], ?_, ?_⟩
  · intro c hc
    simp [termFrequency, hc.ne']
  · intro c hc
    have h0 : (0 : ℝ) < (c : ℝ) := by exact_mod_cast Nat.lt_of_lt_of_le Nat.zero_lt_one hc.le
    have h1 : (c : ℝ) ≠ 1 := by
      have : c ≠ 1 := by omega
      exact_mod_cast this
    have hlt := Real.log_lt_sub_one_of_pos h0 h1
    have hne : c ≠ 0 := by omega
    simp [termFrequency, hne]
    linarith
  · intro c₁ c₂ h1 h2
    have hn₁ : c₁ ≠ 0 := by omega
    have hn₂ : c₂ ≠ 0 := by omega
    have hc₁ : (0 : ℝ) < (c₁ : ℝ) := by exact_mod_cast Nat.pos_of_ne_zero hn₁
    have hc₂ : (0 : ℝ) < (c₂ : ℝ) := by exact_mod_cast Nat.pos_of_ne_zero hn₂
    have hne : (c₂ : ℝ) / (c₁ : ℝ) ≠ 1 := by
      intro h
      rw [div_eq_iff hc₁.ne', one_mul] at h
      have : c₂ = c₁ := by exact_mod_cast h
      omega
    have hlog := Real.log_lt_sub_one_of_pos (div_pos hc₂ hc₁) hne
    have hdiv : Real.log ((c₂ : ℝ) / (c₁ : ℝ)) = Real.log (c₂ : ℝ) - Real.log (c₁ : ℝ) :=
      Real.log_div hc₂.ne' hc₁.ne'
    have heq : (c₂ : ℝ) / (c₁ : ℝ) - 1 = ((c₂ : ℝ) - (c₁ : ℝ)) / (c₁ : ℝ) := by
      field_simp
    have hnum : (0 : ℝ) ≤ (c₂ : ℝ) - (c₁ : ℝ) := by
      have : (c₁ : ℝ) ≤ (c₂ : ℝ) := by exact_mod_cast h2.le
      linarith
    have hle : ((c₂ : ℝ) - (c₁ : ℝ)) / (c₁ : ℝ) ≤ (c₂ : ℝ) - (c₁ : ℝ) :=
      div_le_self hnum (by exact_mod_cast h1)
    simp [termFrequency, hn₁, hn₂]
    linarith

/-- Witness for C4: the dampening inequality at the concrete count 2. -/
theorem sublinear_tf_dampening_witness :
    termFrequency true 2 < termFrequency false 2 :=
  sublinear_tf_dampening.2.2.2.1 2 (by norm_num)

/-- Dot product of two dense vectors of dimension `n`. -/
def dotProduct {n : ℕ} (u v : Fin n → ℝ) : ℝ := ∑ i, u i * v i

/-- Euclidean (L2) magnitude of a dense vector. -/
noncomputable def l2norm {n : ℕ} (v : Fin n → ℝ) : ℝ := Real.sqrt (∑ i, v i ^ 2)

/-- Row normalization as performed by sklearn (`norm='l2'` default of
`TfidfVectorizer`): divide by the L2 norm, leaving all-zero rows
unchanged. -/
noncomputable def l2normalize {n : ℕ} (v : Fin n → ℝ) : Fin n → ℝ :=
  if l2norm v = 0 then v else fun i => v i / l2norm v

/-- The per-index TF*IDF products of a document. -/
noncomputable def tfidfWeights {n : ℕ} (sublinear : Bool) (idfv : Fin n → ℝ)
    (counts : Fin n → ℕ) : Fin n → ℝ :=
  fun i => termFrequency sublinear (counts i) * idfv i

/-- `tfidf.transform` in `bow.py`: multiply term frequency by IDF and then
L2-normalize the resulting row, as `TfidfVectorizer` does by default. -/
noncomputable def tfidfTransform {n : ℕ} (sublinear : Bool) (idfv : Fin n → ℝ)
    (counts : Fin n → ℕ) : Fin n → ℝ :=
  l2normalize (tfidfWeights sublinear idfv counts)

/-- The IDF table of a transformer fitted on `matrix`, as a dense vector of
dimension `n` (`tfidf.idf_`). -/
noncomputable def idfTable (matrix : List (List ℕ)) (n : ℕ) : Fin n → ℝ :=
  fun k => idfOf matrix (k : ℕ)

/-- `sklearn.metrics.pairwise.cosine_similarity` on a pair of rows:
`dot(u,v) / (‖u‖ * ‖v‖)`, with zero-magnitude operands giving 0 (sklearn
normalizes each row, leaving zero rows zero, and then takes dot
products). -/
noncomputable def cosine_similarity {n : ℕ} (u v : Fin n → ℝ) : ℝ :=
  if l2norm u = 0 ∨ l2norm v = 0 then 0
  else dotProduct u v / (l2norm u * l2norm v)

lemma sum_sq_nonneg {n : ℕ} (v : Fin n → ℝ) : 0 ≤ ∑ i, v i ^ 2 :=
  Finset.sum_nonneg fun _ _ => sq_nonneg _

lemma l2norm_nonneg {n : ℕ} (v : Fin n → ℝ) : 0 ≤ l2norm v :=
  Real.sqrt_nonneg _

lemma l2norm_mul_self {n : ℕ} (v : Fin n → ℝ) :
    l2norm v * l2norm v = ∑ i, v i ^ 2 :=
  Real.mul_self_sqrt (sum_sq_nonneg v)

lemma dotProduct_self {n : ℕ} (v : Fin n → ℝ) :
    dotProduct v v = ∑ i, v i ^ 2 := by
  unfold dotProduct
  exact Finset.sum_congr rfl fun i _ => (sq (v i)).symm

lemma dot_le_norm_mul_norm {n : ℕ} (u v : Fin n → ℝ)
    (hdot : 0 ≤ dotProduct u v) :
    dotProduct u v ≤ l2norm u * l2norm v := by
  have h2 : (dotProduct u v) ^ 2 ≤ (∑ i, u i ^ 2) * (∑ i, v i ^ 2) :=
    Finset.sum_mul_sq_le_sq_mul_sq Finset.univ u v
  have hs := Real.sqrt_le_sqrt h2
  rw [Real.sqrt_sq hdot, Real.sqrt_mul (sum_sq_nonneg u)] at hs
  exact hs

/-- C7: cosine similarity of vectors with non-negative weights lies in
`[0, 1]`; a non-zero vector compared with itself gives exactly 1; and a
zero-magnitude operand gives 0, not an error and not NaN. -/
theorem cosine_similarity_bounds {n : ℕ} (u v : Fin n → ℝ)
    (hu : ∀ i, 0 ≤ u i) (hv : ∀ i, 0 ≤ v i) :
    (0 ≤ cosine_similarity u v ∧ cosine_similarity u v ≤ 1)
    ∧ (l2norm u ≠ 0 → cosine_similarity u u = 1)
    ∧ ((l2norm u = 0 ∨ l2norm v = 0) → cosine_similarity u v = 0) := by
  refine ⟨?_, ?_, ?_⟩
  · by_cases h : l2norm u = 0 ∨ l2norm v = 0
    · simp [cosine_similarity, h]
    · push_neg at h
      obtain ⟨h1, h2⟩ := h
      have hu0 : 0 < l2norm u := (l2norm_nonneg u).lt_of_ne (Ne.symm h1)
      have hv0 : 0 < l2norm v := (l2norm_nonneg v).lt_of_ne (Ne.symm h2)
      have hdot : 0 ≤ dotProduct u v :=
        Finset.sum_nonneg fun i _ => mul_nonneg (hu i) (hv i)
      rw [cosine_similarity, if_neg (by push_neg; exact ⟨h1, h2⟩)]
      constructor
      · exact div_nonneg hdot (by positivity)
      · rw [div_le_one (by positivity)]
        exact dot_le_norm_mul_norm u v hdot
  · intro h1
    have h0 : 0 < l2norm u := (l2norm_nonneg u).lt_of_ne (Ne.symm h1)
    rw [cosine_similarity, if_neg (by push_neg; exact ⟨h1, h1⟩)]
    rw [dotProduct_self, l2norm_mul_self]
    have hpos : 0 < ∑ i, u i ^ 2 := l2norm_mul_self u ▸ mul_pos h0 h0
    exact div_self hpos.ne'
  · intro h
    simp [cosine_similarity, h]

/-- Witness for C7 on a concrete pair of non-negative vectors. -/
theorem cosine_similarity_bounds_witness :
    0 ≤ cosine_similarity ![(1 : ℝ), 0] ![(0 : ℝ), 1]
    ∧ cosine_similarity ![(1 : ℝ), 0] ![(0 : ℝ), 1] ≤ 1 :=
  (cosine_similarity_bounds ![(1 : ℝ), 0] ![(0 : ℝ), 1]
    (fun i => by fin_cases i <;> norm_num)
    (fun i => by fin_cases i <;> norm_num)).1

/-- A one-document fit corpus whose two vocabulary terms both occur, so
every smoothed IDF equals 1. -/
def fitMatrixC2 : List (List ℕ) := [[1, 1]]

/-- A concrete raw-count query vector. -/
def countsC2 : Fin 2 → ℕ := ![3, 4]

lemma idfTableC2 (k : Fin 2) : idfTable fitMatrixC2 2 k = 1 := by
  have hdf : documentFrequency fitMatrixC2 (k : ℕ) = 1 := by
    fin_cases k <;> rfl
  show idfOf fitMatrixC2 (k : ℕ) = 1
  unfold idfOf
  rw [hdf]
  exact idf_self 1

lemma tfidfWeightsC2 :
    tfidfWeights false (idfTable fitMatrixC2 2) countsC2
      = fun i => (countsC2 i : ℝ) := by
  funext i
  rw [tfidfWeights, idfTableC2 i, mul_one]
  simp [termFrequency]

lemma l2normC2 :
    l2norm (tfidfWeights false (idfTable fitMatrixC2 2) countsC2) = 5 := by
  rw [tfidfWeightsC2]
  unfold l2norm
  have hsum : (∑ i : Fin 2, ((countsC2 i : ℝ)) ^ 2) = 25 := by
    rw [Fin.sum_univ_two]
    norm_num [countsC2]
  rw [hsum, show (25 : ℝ) = 5 ^ 2 by norm_num, Real.sqrt_sq (by norm_num)]

/-- Counterexample to C2: with an IDF table fitted on `fitMatrixC2` (all
IDF values are 1) and counts `(3, 4)`, the transformed weight at index 0 is
`3 / 5`, not the unnormalized product `TF * IDF = 3`: `TfidfVectorizer`
L2-normalizes every output vector by default. -/
theorem tfidf_transform_normalizes_cex :
    tfidfTransform false (idfTable fitMatrixC2 2) countsC2 0
      ≠ tfidfWeights false (idfTable fitMatrixC2 2) countsC2 0 := by
  have hne : l2norm (tfidfWeights false (idfTable fitMatrixC2 2) countsC2) ≠ 0 := by
    rw [l2normC2]; norm_num
  rw [tfidfTransform, l2normalize, if_neg hne]
  have hw : tfidfWeights false (idfTable fitMatrixC2 2) countsC2 0 = 3 := by
    rw [tfidfWeightsC2]
    norm_num [countsC2]
  show tfidfWeights false (idfTable fitMatrixC2 2) countsC2 0
      / l2norm (tfidfWeights false (idfTable fitMatrixC2 2) countsC2) ≠ _
  rw [hw, l2normC2]
  norm_num

/-- C2 amended: the TF-IDF transform computes `TF * IDF` per index and then
L2-normalizes the vector (the `norm='l2'` default), so each output weight
is `TF * IDF` divided by the L2 norm of the document's TF*IDF vector. -/
theorem tfidf_transform_formula {n : ℕ} (sublinear : Bool) (idfv : Fin n → ℝ)
    (counts : Fin n → ℕ)
    (h : l2norm (tfidfWeights sublinear idfv counts) ≠ 0) (i : Fin n) :
    tfidfTransform sublinear idfv counts i
      = tfidfWeights sublinear idfv counts i
          / l2norm (tfidfWeights sublinear idfv counts) := by
  rw [tfidfTransform, l2normalize, if_neg h]

/-- Witness for the amended C2 at the concrete fitted instance. -/
theorem tfidf_transform_formula_witness :
    tfidfTransform false (idfTable fitMatrixC2 2) countsC2 0
      = tfidfWeights false (idfTable fitMatrixC2 2) countsC2 0
          / l2norm (tfidfWeights false (idfTable fitMatrixC2 2) countsC2) :=
  tfidf_transform_formula false (idfTable fitMatrixC2 2) countsC2
    (by rw [l2normC2]; norm_num) 0

lemma l2norm_div_scalar {n : ℕ} (v : Fin n → ℝ) (s : ℝ) (hs : 0 < s)
    (hsq : s * s = ∑ i, v i ^ 2) :
    l2norm (fun i => v i / s) = 1 := by
  show Real.sqrt (∑ i, (v i / s) ^ 2) = 1
  have hsum : (∑ i, (v i / s) ^ 2) = (∑ i, v i ^ 2) / s ^ 2 := by
    rw [Finset.sum_div]
    exact Finset.sum_congr rfl fun i _ => div_pow (v i) s 2
  rw [hsum, ← hsq, sq, div_self (mul_pos hs hs).ne', Real.sqrt_one]

lemma l2norm_l2normalize {n : ℕ} (v : Fin n → ℝ) (h : l2norm v ≠ 0) :
    l2norm (l2normalize v) = 1 := by
  have h0 : 0 < l2norm v := (l2norm_nonneg v).lt_of_ne (Ne.symm h)
  rw [l2normalize, if_neg h]
  exact l2norm_div_scalar v (l2norm v) h0 (l2norm_mul_self v)

/-- C10: every non-zero TF-IDF output vector has unit L2 norm, so cosine
similarity of two such vectors equals their plain dot product. -/
theorem tfidf_unit_norm_dot {n : ℕ} (sublinear : Bool) (idfv : Fin n → ℝ)
    (c c' : Fin n → ℕ)
    (h : l2norm (tfidfWeights sublinear idfv c) ≠ 0)
    (h' : l2norm (tfidfWeights sublinear idfv c') ≠ 0) :
    l2norm (tfidfTransform sublinear idfv c) = 1
    ∧ cosine_similarity (tfidfTransform sublinear idfv c)
          (tfidfTransform sublinear idfv c')
        = dotProduct (tfidfTransform sublinear idfv c)
            (tfidfTransform sublinear idfv c') := by
  have h1 : l2norm (tfidfTransform sublinear idfv c) = 1 :=
    l2norm_l2normalize _ h
  have h2 : l2norm (tfidfTransform sublinear idfv c') = 1 :=
    l2norm_l2normalize _ h'
  refine ⟨h1, ?_⟩
  rw [cosine_similarity, if_neg (by rw [h1, h2]; norm_num), h1, h2]
  norm_num

/-- Witness for C10 at the concrete fitted instance. -/
theorem tfidf_unit_norm_dot_witness :
    l2norm (tfidfTransform false (idfTable fitMatrixC2 2) countsC2) = 1 :=
  (tfidf_unit_norm_dot false (idfTable fitMatrixC2 2) countsC2 countsC2
    (by rw [l2normC2]; norm_num) (by rw [l2normC2]; norm_num)).1

/-- `similarities.sort_values(ascending=False)` in `bow.py`: sort the
similarity series by value descending, carrying the series index (the
document index) along.  pandas performs this with its default sort kind
`quicksort` (numpy introsort), which is documented as NOT stable, and the
reversal convention around the underlying ascending argsort has differed
across pandas versions, so the relative order of EQUAL scores is
implementation-defined.  This model must still pick some deterministic
order to be an executable function; it uses a reversed merge sort by
score.  Only the score-descending ordering, the permutation property and
the length of the result reflect guarantees of the program: no tie-order
property of this model is a property of `bow.py`. -/
def rank {α : Type} [LinearOrder α] (scores : List α) : List (ℕ × α) :=
  ((scores.enum).mergeSort fun a b : ℕ × α => decide (a.2 ≤ b.2)).reverse

/-- Python slice `l[:k]`, as in `top_10 = similarities.sort_values(...)[:10]`:
a non-negative stop takes the first `k` items, a negative stop drops the
last `|k|`; no value of `k` raises an error. -/
def pySlice {β : Type} (l : List β) (k : ℤ) : List β :=
  if 0 ≤ k then l.take k.toNat else l.take (l.length - (-k).toNat)

/-- The ranking call of `bow.py` generalized over the cutoff:
`similarities.sort_values(ascending=False)[:top_k]`. -/
def topK {α : Type} [LinearOrder α] (scores : List α) (k : ℤ) : List (ℕ × α) :=
  pySlice (rank scores) k

/-- Modelled from the spec (§4.4): ranking fails with `InvalidTopK` when
`top_k ≤ 0`, and otherwise returns the `top_k` prefix of the sorted
sequence.  This follows the spec's words and exists only for comparison
with the code-level `topK`. -/
def topKSpec {α : Type} [LinearOrder α] (scores : List α) (k : ℤ) :
    Except String (List (ℕ × α)) :=
  if k ≤ 0 then Except.error "InvalidTopK" else Except.ok (topK scores k)

/-- Counterexample to C9: at `top_k = 0` the code returns the empty slice
and raises nothing, while the claim mandates failure with `InvalidTopK`. -/
theorem topK_zero_no_error_cex :
    topK [(1 : ℚ)] 0 = []
    ∧ topKSpec [(1 : ℚ)] 0 = Except.error "InvalidTopK"
    ∧ Except.ok (topK [(1 : ℚ)] 0) ≠ topKSpec [(1 : ℚ)] 0 := by
  have h0 : topK [(1 : ℚ)] 0 = [] := rfl
  refine ⟨h0, rfl, ?_⟩
  rw [h0]
  intro h
  simp [topKSpec] at h

/-- C9 amended: `top_k` always selects a prefix of the fully sorted
sequence; a `top_k` of at least the corpus size returns the full ranking;
and a non-positive `top_k` does not fail: the slice yields a list, empty
for `top_k = 0`. -/
theorem topK_prefix_behavior {α : Type} [LinearOrder α] (scores : List α) (k : ℤ) :
    (∃ m, topK scores k = (rank scores).take m)
    ∧ (0 ≤ k → topK scores k = (rank scores).take k.toNat)
    ∧ ((scores.length : ℤ) ≤ k → topK scores k = rank scores)
    ∧ topK scores 0 = [] := by
  refine ⟨?_, ?_, ?_, ?_⟩
  · rw [topK, pySlice]
    by_cases h : 0 ≤ k
    · exact ⟨k.toNat, by rw [if_pos h]⟩
    · exact ⟨(rank scores).length - (-k).toNat, by rw [if_neg h]⟩
  · intro h
    rw [topK, pySlice, if_pos h]
  · intro h
    have h0 : (0 : ℤ) ≤ k := le_trans (by exact_mod_cast Nat.zero_le _) h
    rw [topK, pySlice, if_pos h0]
    apply List.take_of_length_le
    have hlen : (rank scores).length = scores.length := by
      rw [rank, List.length_reverse, List.length_mergeSort, List.enum_length]
    rw [hlen]
    omega
  · rw [topK, pySlice, if_pos (le_refl (0 : ℤ))]
    simp

/-- Witness for the amended C9: a cutoff past the corpus size returns the
full ranking. -/
theorem topK_prefix_behavior_witness :
    topK [(1 : ℚ)] 5 = rank [(1 : ℚ)] :=
  (topK_prefix_behavior [(1 : ℚ)] 5).2.2.1 (by decide)

end BoW
